import Mathlib

/-!
Verification of the `instantcards` transcription-processor pipeline
(`src/functions/transcription_processor/`): a shallow embedding of the
data model (`classes.py`), the tagged XML codec, token extraction
(`extract_atoms.py`), remote card creation with retry
(`create_atom_cards.py`, `create_block_cards.py`) and the orchestrator
(`main.py`), together with theorems settling the specification claims.

Python strings are modelled as `List Char`; floats that only ever hold
timestamps or doubling retry delays are modelled as `ℚ`; raised
exceptions are modelled with `Except`.
-/

namespace InstantCards

/-- Python `str` modelled as a list of characters. -/
abbrev PyStr := List Char

/-- Whitespace characters removed by Python `str.strip()`. -/
def pyWS (c : Char) : Bool :=
  c = ' ' || c = '\t' || c = '\n' || c = '\r' || c = '\x0b' || c = '\x0c'

/-- Python `str.strip()`: drop whitespace from both ends. -/
def pyStrip (s : PyStr) : PyStr :=
  ((s.dropWhile pyWS).reverse.dropWhile pyWS).reverse

/-- The decimal digit character for `d < 10` (`str(d)` for one digit). -/
def digitChar (d : Nat) : Char :=
  match d with
  | 0 => '0' | 1 => '1' | 2 => '2' | 3 => '3' | 4 => '4'
  | 5 => '5' | 6 => '6' | 7 => '7' | 8 => '8' | _ => '9'

/-- Numeric value of a decimal digit character (inverse of `digitChar`). -/
def digitVal (c : Char) : Nat :=
  match c with
  | '0' => 0 | '1' => 1 | '2' => 2 | '3' => 3 | '4' => 4
  | '5' => 5 | '6' => 6 | '7' => 7 | '8' => 8 | _ => 9

/-- Python `str(n)` for a non-negative integer: decimal digits, most
significant first. -/
def natDigits (n : Nat) : PyStr :=
  if h : n < 10 then [digitChar n]
  else natDigits (n / 10) ++ [digitChar (n % 10)]
  termination_by n
  decreasing_by exact Nat.div_lt_self (by omega) (by omega)

/-- Python `int(s)` on a string of decimal digits. -/
def digitsVal (s : PyStr) : Nat :=
  s.foldl (fun a c => 10 * a + digitVal c) 0

/-! ### The regex scanner

`Translation.decode_xml` (classes.py:99-106) runs
`re.findall(r'<(\d+)>(.*?)</\1>', xml_text, re.DOTALL)`.  The scanner
below implements exactly that pattern's matching semantics: at a `<`,
take the maximal run of digits (the greedy `\d+` cannot backtrack here
because the next literal is `>`, which is not a digit), require `>`,
then lazily search for the nearest matching close tag `</i>`; on any
failure advance one character, on success resume after the match
(non-overlapping leftmost matches, as `re.findall` does). -/

/-- Split off the maximal leading run of decimal digits (`\d+` greedy). -/
def takeDigits : PyStr → PyStr × PyStr
  | [] => ([], [])
  | c :: cs =>
    if c.isDigit then
      let (ds, rest) := takeDigits cs
      (c :: ds, rest)
    else ([], c :: cs)

/-- Lazy search (`(.*?)`) for the first occurrence of `close`: returns
the content before it and the remainder after it. -/
def findClose (close : PyStr) : PyStr → Option (PyStr × PyStr)
  | [] => if close.isPrefixOf ([] : PyStr) then some ([], []) else none
  | c :: cs =>
    if close.isPrefixOf (c :: cs) then some ([], (c :: cs).drop close.length)
    else (findClose close cs).map (fun pr => (c :: pr.1, pr.2))

theorem takeDigits_eq (cs : PyStr) :
    cs = (takeDigits cs).1 ++ (takeDigits cs).2 := by
  induction cs with
  | nil => rfl
  | cons c cs ih =>
    by_cases h : c.isDigit <;> simp [takeDigits, h] <;> exact ih

theorem findClose_eq {close cs p r : PyStr} (h : findClose close cs = some (p, r)) :
    cs = p ++ close ++ r := by
  induction cs generalizing p r with
  | nil =>
    simp only [findClose] at h
    split at h
    · rename_i hp
      rw [ List.isPrefixOf_iff_prefix, List.prefix_nil] at hp
      subst hp
      simp at h
      obtain ⟨rfl, rfl⟩ := h
      rfl
    · exact absurd h (by simp)
  | cons c cs ih =>
    simp only [findClose] at h
    split at h
    · rename_i hp
      rw [ List.isPrefixOf_iff_prefix] at hp
      obtain ⟨t, ht⟩ := hp
      simp only [Option.some.injEq, Prod.mk.injEq] at h
      obtain ⟨rfl, rfl⟩ := h
      conv_lhs => rw [← ht]
      simp [← ht]
    · rename_i hp
      cases hfc : findClose close cs with
      | none => rw [hfc] at h; simp at h
      | some pr =>
        rw [hfc] at h
        simp only [Option.map_some', Option.some.injEq, Prod.mk.injEq] at h
        obtain ⟨rfl, rfl⟩ := h
        have := ih (p := pr.1) (r := pr.2) (by rw [hfc])
        simp [this]

/-- The closing tag `</i>` for an index string `ds`. -/
def closeTag (ds : PyStr) : PyStr := '<' :: '/' :: (ds ++ ['>'])

/-- One attempted match of `<(\d+)>(.*?)</\1>` at the start of the
input: a literal `<`, the maximal digit run (greedy `\d+` — it cannot
backtrack because the following literal `>` is not a digit), a literal
`>`, then the lazy search for the matching close tag.  Returns the two
capture groups and the remainder after the match, or `none` when the
match fails at this position. -/
def matchAt (cs : PyStr) : Option (PyStr × PyStr × PyStr) :=
  match cs with
  | [] => none
  | c :: rest =>
    if c = '<' then
      let ds := (takeDigits rest).1
      if ds.isEmpty then none
      else
        match (takeDigits rest).2 with
        | [] => none
        | c2 :: rest2 =>
          if c2 = '>' then
            match findClose (closeTag ds) rest2 with
            | some pr => some (ds, pr.1, pr.2)
            | none => none
          else none
    else none

theorem matchAt_some_length {cs ds content after : PyStr}
    (h : matchAt cs = some (ds, content, after)) : after.length < cs.length := by
  cases cs with
  | nil => exact absurd h (by simp [matchAt])
  | cons c rest =>
    simp only [matchAt] at h
    split at h
    · split at h
      · exact absurd h (by simp)
      · split at h
        · exact absurd h (by simp)
        · rename_i ch ctail htail
          split at h
          · split at h
            · rename_i pr heq2
              simp only [Option.some.injEq, Prod.mk.injEq] at h
              obtain ⟨rfl, rfl, rfl⟩ := h
              have hL : rest.length
                  = (takeDigits rest).1.length + (takeDigits rest).2.length := by
                conv_lhs => rw [takeDigits_eq rest]
                simp
              have h2 := findClose_eq heq2
              have h3 : ctail.length = pr.1.length
                  + (closeTag (takeDigits rest).1).length + pr.2.length := by
                rw [h2]; simp; omega
              have h4 : (closeTag (takeDigits rest).1).length
                  = (takeDigits rest).1.length + 3 := by simp [closeTag]
              have h5 : (takeDigits rest).2.length = ctail.length + 1 := by
                rw [htail]; simp
              simp only [List.length_cons]
              omega
            · exact absurd h (by simp)
          · exact absurd h (by simp)
    · exact absurd h (by simp)

/-- All matches of `<(\d+)>(.*?)</\1>` over the input, leftmost and
non-overlapping, as `(digits, content)` pairs — `re.findall` with the
two capture groups and `re.DOTALL`.  On a failed match the scan advances
a single character; on a success it resumes after the match. -/
def findall (s : PyStr) : List (PyStr × PyStr) :=
  match s with
  | [] => []
  | c :: cs =>
    match h : matchAt (c :: cs) with
    | some (ds, content, after) => (ds, content) :: findall after
    | none => findall cs
  termination_by s.length
  decreasing_by
  · exact matchAt_some_length h
  · simp

/-- The classmethod `Translation.decode_xml` (classes.py:99-106): find all tag matches,
sort them by numeric index (Python's stable `sorted` with key
`int(x[0])`), and return the stripped contents. -/
def decode_xml (xml_text : PyStr) : List PyStr :=
  let found := findall xml_text
  let sorted_matches :=
    found.mergeSort (fun a b => decide (digitsVal a.1 ≤ digitsVal b.1))
  sorted_matches.map (fun m => pyStrip m.2)

/-- The classmethod `Translation.encode_xml` (classes.py:108-111):
`f"<{index}>{text}</{index}>"`. -/
def encode_xml (text : PyStr) (index : Nat) : PyStr :=
  '<' :: natDigits index ++ '>' :: (text ++ '<' :: '/' :: natDigits index ++ ['>'])

/-- Python `" ".join(items)`. -/
def joinSpace : List PyStr → PyStr
  | [] => []
  | [x] => x
  | x :: y :: xs => x ++ ' ' :: joinSpace (y :: xs)

/-! ### Exceptions -/

/-- Exception values raised by the embedded code. -/
inductive PyErr where
  /-- `ValueError(msg)`. -/
  | valueError (msg : String)
  /-- `IndexError(f"Block index {i} out of range")`: the explicit guard in
  `add_atoms_to_block` / `set_block_translation` (classes.py:148-149,156-157). -/
  | indexErrorGuard (i : Int)
  /-- `IndexError: list index out of range`, raised by Python list
  subscripting itself. -/
  | indexErrorList
  /-- `KeyError(k)`, raised by Python dict subscripting on a missing key. -/
  | keyError (k : PyStr)
  /-- `ValueError(f"Failed to parse SRT text: {e}")`: the wrapper in
  `Translation._parse_blocks` (classes.py:96-97) around the inner exception. -/
  | parseWrapped (inner : PyErr)
  /-- An HTTP error response surfaced by `response.raise_for_status()`
  (`requests.HTTPError` with the given status code). -/
  | httpError (status : Nat)
  /-- A network-level failure of the HTTP request (`requests.ConnectionError`
  and similar). -/
  | networkError
  /-- The `RuntimeError("... never be reached ...")` after the retry loops
  (create_atom_cards.py:58-60, create_block_cards.py:194-195). -/
  | runtimeError
  deriving DecidableEq, Repr

/-! ### Data model (classes.py) -/

/-- The dict built by `MeCabToken.get_metadata` (extract_atoms.py:21-28). -/
structure TokenMeta where
  pos_details : List PyStr
  conjugation_type : Option PyStr
  conjugation_form : Option PyStr
  reading : PyStr
  pronunciation : PyStr
  deriving DecidableEq, Repr

/-- The `Atom` dataclass (classes.py:8-29).  `__post_init__` rejects
whitespace-only values; every constructor call in the pipeline passes a
tokenizer surface form, and no claim concerns that check, so the
embedding keeps the fields only. -/
structure Atom where
  value : PyStr
  base_form : PyStr
  part_of_speech : PyStr
  metadata : Option TokenMeta := none
  card_id : Option PyStr := none
  deriving DecidableEq, Repr

/-- The method `Atom.set_card_id` (classes.py:27-29). -/
def Atom.set_card_id (a : Atom) (card_id : PyStr) : Atom :=
  { a with card_id := some card_id }

/-- The `Block` dataclass fields (classes.py:32-41). -/
structure Block where
  start_time : ℚ
  end_time : ℚ
  value : PyStr
  card_id : Option PyStr := none
  atoms : List Atom := []
  translated_value : Option PyStr := none
  audio_url : Option PyStr := none
  deriving DecidableEq, Repr

/-- Construction of a `Block(...)` including `__post_init__` validation
(classes.py:43-48). -/
def Block.create (start_time end_time : ℚ) (value : PyStr) : Except PyErr Block :=
  if start_time ≥ end_time then
    .error (.valueError "Start time must be before end time")
  else if pyStrip value = [] then
    .error (.valueError "Block value cannot be empty")
  else
    .ok { start_time := start_time, end_time := end_time, value := value }

/-- The method `Block.add_atom` (classes.py:50-52): unconditional append. -/
def Block.add_atom (b : Block) (atom : Atom) : Block :=
  { b with atoms := b.atoms ++ [atom] }

/-- A parsed subtitle cue as produced by the external `srt` library
(`subtitle.start.total_seconds()`, `.end.total_seconds()`, `.content`). -/
structure Cue where
  start : ℚ
  stop : ℚ
  content : PyStr
  deriving DecidableEq, Repr

/-- The `Translation` object state (classes.py:63-75). -/
structure Translation where
  transcription_text : PyStr := []
  blocks : List Block
  deriving DecidableEq, Repr

/-- The constructor `Translation.__init__` / `_parse_blocks` (classes.py:66-97): build a
`Block` per cue in order; any exception is re-raised wrapped in
`ValueError(f"Failed to parse SRT text: {e}")`.  The cue list stands for
the output of the external `srt.parse` on `transcription_text`. -/
def Translation.init (text : PyStr) (cues : List Cue) : Except PyErr Translation :=
  (Except.mapError .parseWrapped
    (cues.mapM fun c => Block.create c.start c.stop c.content)).map
    fun bs => { transcription_text := text, blocks := bs }

/-- The method `Translation.get_block_count` (classes.py:127-129). -/
def Translation.get_block_count (t : Translation) : Nat :=
  t.blocks.length

/-- The method `Translation.get_full_text_with_xml` (classes.py:117-119):
`" ".join(self.encode_xml(block.value, i) for i, block in enumerate(self.blocks))`. -/
def Translation.get_full_text_with_xml (t : Translation) : PyStr :=
  joinSpace (t.blocks.enum.map fun p => encode_xml p.2.value p.1)

/-- Python list subscripting `xs[i]` for `int` indexes: non-negative
indexes address from the front, indexes in `[-len, -1]` from the back,
anything else raises `IndexError`. -/
def pyListIdx (len : Nat) (i : Int) : Except PyErr Nat :=
  if 0 ≤ i then
    if i < len then .ok i.toNat else .error .indexErrorList
  else
    if -(len : Int) ≤ i then .ok (len + i).toNat else .error .indexErrorList

/-- The method `Translation.add_atoms_to_block` (classes.py:146-152): explicit
two-sided bounds guard, then `add_atom` per atom on the selected block. -/
def Translation.add_atoms_to_block (t : Translation) (block_index : Int)
    (atoms : List Atom) : Except PyErr Translation :=
  if block_index ≥ (t.blocks.length : Int) ∨ block_index < 0 then
    .error (.indexErrorGuard block_index)
  else
    .ok { t with blocks :=
      t.blocks.modify (fun b => atoms.foldl Block.add_atom b) block_index.toNat }

/-- The method `Translation.set_block_translation` (classes.py:154-159): guard on
the upper bound only, then Python list subscripting. -/
def Translation.set_block_translation (t : Translation) (block_index : Int)
    (translated_text : PyStr) : Except PyErr Translation :=
  if block_index ≥ (t.blocks.length : Int) then
    .error (.indexErrorGuard block_index)
  else
    (pyListIdx t.blocks.length block_index).map fun k =>
      { t with blocks :=
        t.blocks.modify (fun b => { b with translated_value := some translated_text }) k }

/-- The decode-and-assign step of `translate` (translate.py:36-43):
`decode_xml` on the model output, then
`for i in range(N): set_block_translation(i, translated_text[i])`.
The subscript `translated_text[i]` raises `IndexError` when the decoded
list is shorter than the block count. -/
def translate_decode_assign (t : Translation) (output_text : PyStr) :
    Except PyErr Translation :=
  let translated_text := decode_xml output_text
  (List.range t.get_block_count).foldlM
    (fun acc i =>
      match translated_text.get? i with
      | none => .error .indexErrorList
      | some x => acc.set_block_translation i x)
    t

/-- All atoms across all blocks: the `Translation.atoms` generator
(classes.py:139-144), in block order. -/
def Translation.atomsList (t : Translation) : List Atom :=
  t.blocks.flatMap (·.atoms)

/-- The method `Translation.get_duration` (classes.py:121-125). -/
def Translation.get_duration (t : Translation) : ℚ :=
  match t.blocks.getLast?, t.blocks.head? with
  | some last, some first => last.end_time - first.start_time
  | _, _ => 0

/-- The method `Translation.get_total_atoms` (classes.py:131-133). -/
def Translation.get_total_atoms (t : Translation) : Nat :=
  (t.blocks.map fun b => b.atoms.length).sum

/-- The method `Block.get_new_atoms` (classes.py:58-60): atoms whose `card_id` is
falsy (`None` or the empty string). -/
def Block.get_new_atoms (b : Block) : List Atom :=
  b.atoms.filter fun a =>
    match a.card_id with
    | none => true
    | some s => s.isEmpty

/-- The method `Translation.get_new_atoms_count` (classes.py:135-137). -/
def Translation.get_new_atoms_count (t : Translation) : Nat :=
  (t.blocks.map fun b => b.get_new_atoms.length).sum

/-- The method `Translation.get_audio_segments_count` (classes.py:168-174). -/
def Translation.get_audio_segments_count (t : Translation) : Nat :=
  (t.blocks.filter fun b => b.audio_url.isSome).length

/-! ### Token extraction (extract_atoms.py) -/

/-- A parsed tokenizer record (`MeCabToken`, extract_atoms.py:9-28),
with `pos` already mapped to the English category by
`_map_part_of_speech` and symbol categories already filtered out, as
`_parse_mecab_output` does before returning.  The tokenizer itself is an
external collaborator, so token lists are inputs here. -/
structure MeCabToken where
  surface : PyStr
  pos : PyStr
  pos_details : List PyStr
  conjugation_type : Option PyStr
  conjugation_form : Option PyStr
  conjugation_form_number : Option PyStr
  base_form : PyStr
  reading : PyStr
  pronunciation : PyStr
  deriving DecidableEq, Repr

/-- The method `MeCabToken.get_metadata` (extract_atoms.py:21-28). -/
def MeCabToken.get_metadata (tk : MeCabToken) : TokenMeta :=
  { pos_details := tk.pos_details
    conjugation_type := tk.conjugation_type
    conjugation_form := tk.conjugation_form
    reading := tk.reading
    pronunciation := tk.pronunciation }

/-- The `Atom(...)` built for a token in `_extract_atoms_from_block`
(extract_atoms.py:108-113), including the `'*'` base-form fallback. -/
def mkAtomOfToken (tk : MeCabToken) : Atom :=
  { value := tk.surface
    base_form := if tk.base_form ≠ ['*'] then tk.base_form else tk.surface
    part_of_speech := tk.pos
    metadata := some tk.get_metadata }

/-- The dedup loop of `_extract_atoms_from_block` (extract_atoms.py:104-115):
`seen_words` is the set of surface values already emitted. -/
def dedupTokens : List MeCabToken → List PyStr → List Atom
  | [], _ => []
  | tk :: rest, seen =>
    if tk.surface ∈ seen then dedupTokens rest seen
    else mkAtomOfToken tk :: dedupTokens rest (tk.surface :: seen)

/-- The function `_extract_atoms_from_block` (extract_atoms.py:84-120): empty or
whitespace-only block text yields `[]` before tokenizing; otherwise the
tokenizer output (`tokens`) is deduplicated by surface value. -/
def extract_atoms_from_block (blockValue : PyStr) (tokens : List MeCabToken) :
    List Atom :=
  if pyStrip blockValue = [] then [] else dedupTokens tokens []

/-- The worker of `dedupFirst`: `seen` is the set of values already kept. -/
def dedupFirstGo : List PyStr → List PyStr → List PyStr
  | [], _ => []
  | x :: xs, seen =>
    if x ∈ seen then dedupFirstGo xs seen else x :: dedupFirstGo xs (x :: seen)

/-- First-occurrence deduplication of a list of strings (the insertion
order of a Python set filled by one left-to-right loop). -/
def dedupFirst (l : List PyStr) : List PyStr :=
  dedupFirstGo l []

/-! ### Retry wrapper (create_atom_cards.py:15-60,
create_block_cards.py:151-195) -/

/-- The `for attempt in range(max_retries + 1)` loop shared by
`create_single_card_with_retry` and `create_single_block_card_with_retry`:
`call k` is the outcome of the `k`-th attempt of the underlying request;
the returned list records every `time.sleep(retry_delay)` performed, with
`retry_delay` doubling after each sleep.  Any exception whatsoever is
caught and retried while attempts remain; the last exception is re-raised. -/
def retryGo (call : Nat → Except PyErr α) (max_retries : Nat) :
    List Nat → ℚ → List ℚ → Except PyErr α × List ℚ
  | [], _, sleeps => (.error .runtimeError, sleeps)
  | attempt :: rest, retry_delay, sleeps =>
    match call attempt with
    | .ok a => (.ok a, sleeps)
    | .error e =>
      if attempt < max_retries then
        retryGo call max_retries rest (retry_delay * 2) (sleeps ++ [retry_delay])
      else (.error e, sleeps)

/-- The wrapper `create_single_card_with_retry` (create_atom_cards.py:15-60) as a
function of the per-attempt outcome oracle. -/
def create_single_card_with_retry (call : Nat → Except PyErr α)
    (max_retries : Nat) (retry_delay : ℚ) : Except PyErr α × List ℚ :=
  retryGo call max_retries (List.range (max_retries + 1)) retry_delay []

/-- The wrapper `create_single_block_card_with_retry` (create_block_cards.py:151-195):
the same loop, line for line, over the block-card request. -/
def create_single_block_card_with_retry (call : Nat → Except PyErr α)
    (max_retries : Nat) (retry_delay : ℚ) : Except PyErr α × List ℚ :=
  retryGo call max_retries (List.range (max_retries + 1)) retry_delay []

/-! ### Token-card creation (create_atom_cards.py:144-203) -/

/-- The `unique_values` set (create_atom_cards.py:151-153), represented in
first-insertion order (Python set iteration order is unspecified; every
claim about this phase is order-independent). -/
def unique_values (t : Translation) : List PyStr :=
  dedupFirst (t.atomsList.map (·.value))

/-- The `existing_card_ids` dict (create_atom_cards.py:155-163):
`dbLookup v` is the `card.destination_id` of the stored atom row for
value `v`, if the batched query returns one. -/
def existing_card_ids (t : Translation) (dbLookup : PyStr → Option PyStr) :
    List (PyStr × PyStr) :=
  (unique_values t).filterMap fun v => (dbLookup v).map fun id => (v, id)

/-- The list `values_to_create` (create_atom_cards.py:165-166). -/
def values_to_create (t : Translation) (dbLookup : PyStr → Option PyStr) :
    List PyStr :=
  (unique_values t).filter fun v =>
    ((existing_card_ids t dbLookup).lookup v).isNone

/-- The `as_completed` loop (create_atom_cards.py:180-191): collect
successful creations into `new_card_ids` and failures into
`creation_errors` (as `{"value": value, "error": str(e)}` pairs), in
submission order. -/
def collectCreations (create : PyStr → Except PyErr PyStr) :
    List PyStr → List (PyStr × PyStr) × List (PyStr × PyErr)
  | [] => ([], [])
  | v :: vs =>
    let rest := collectCreations create vs
    match create v with
    | .ok id => ((v, id) :: rest.1, rest.2)
    | .error e => (rest.1, (v, e) :: rest.2)

/-- The result dict of `create_atom_cards` (create_atom_cards.py:198-203). -/
structure AtomCardsResult where
  atom_cards_created_count : Nat
  atom_cards_existing_count : Nat
  atom_cards_total_count : Nat
  atom_cards_creation_errors : List (PyStr × PyErr)
  deriving DecidableEq, Repr

/-- One step of the final assignment loop (create_atom_cards.py:195-196):
`atom.set_card_id(all_card_ids[atom.value])`.  The dict subscript raises
`KeyError` when the value has no entry. -/
def assignAtom (all_card_ids : List (PyStr × PyStr)) (a : Atom) : Except PyErr Atom :=
  match all_card_ids.lookup a.value with
  | none => Except.error (PyErr.keyError a.value)
  | some id => Except.ok (a.set_card_id id)

/-- The assignment loop restricted to one block's atoms. -/
def assignBlock (all_card_ids : List (PyStr × PyStr)) (b : Block) : Except PyErr Block :=
  (b.atoms.mapM (assignAtom all_card_ids)).map fun atoms => { b with atoms := atoms }

/-- The final assignment loop (create_atom_cards.py:195-196):
`for atom in translation.atoms: atom.set_card_id(all_card_ids[atom.value])`,
iterating the `atoms` generator block by block. -/
def assignCardIds (all_card_ids : List (PyStr × PyStr)) (t : Translation) :
    Except PyErr Translation :=
  (t.blocks.mapM (assignBlock all_card_ids)).map fun bs => { t with blocks := bs }

/-- The function `create_atom_cards` (create_atom_cards.py:144-203), as a function of
the batched-lookup oracle and the per-value creation outcome (the result
of `create_single_card_with_retry` for that value). -/
def create_atom_cards (t : Translation) (dbLookup : PyStr → Option PyStr)
    (create : PyStr → Except PyErr PyStr) :
    Except PyErr (Translation × AtomCardsResult) :=
  let existing := existing_card_ids t dbLookup
  let created := collectCreations create (values_to_create t dbLookup)
  let all_card_ids := existing ++ created.1
  (assignCardIds all_card_ids t).map fun t' =>
    (t', { atom_cards_created_count := created.1.length
           atom_cards_existing_count := existing.length
           atom_cards_total_count := all_card_ids.length
           atom_cards_creation_errors := created.2 })

/-! ### Orchestrator (main.py) -/

/-- One slot of the per-branch result map built by
`process_translation_parallel` (main.py:104-112): either the branch's
result dict or `{"error": str(e)}` for a branch that raised `e`. -/
inductive BranchSlot (α : Type) where
  | result (d : α)
  | error (e : PyErr)
  deriving DecidableEq, Repr

/-- Either `results[name] = result` or `results[name] = {"error": str(result)}`. -/
def slotOf : Except PyErr α → BranchSlot α
  | .ok d => .result d
  | .error e => .error e

/-- The combined dict returned by `process_translation_parallel`
(main.py:104-123).  `translation_data` stands for
`translation.to_dict()`. -/
structure ParallelResults (α β γ : Type) where
  store_audio : BranchSlot α
  translate : BranchSlot β
  extract_atoms : BranchSlot γ
  translation_data : Translation
  deriving DecidableEq, Repr

/-- The function `process_translation_parallel` (main.py:74-123):
`asyncio.gather(..., return_exceptions=True)` over the three branches,
then each exception is folded into its branch's slot.  Each branch is an
oracle for its outcome; the branches' in-place writes to disjoint
`Translation` fields are outside this claim's scope and not threaded. -/
def process_translation_parallel (tr : Translation)
    (store_result : Except PyErr α) (translate_result : Except PyErr β)
    (extract_result : Except PyErr γ) : ParallelResults α β γ :=
  { store_audio := slotOf store_result
    translate := slotOf translate_result
    extract_atoms := slotOf extract_result
    translation_data := tr }

/-- The full result dict of `transcribe_and_process_audio`
(main.py:149-165): branch results plus transcript-derived metadata. -/
structure JobResults (α β γ : Type) where
  branches : ParallelResults α β γ
  blocks_count : Nat
  duration : ℚ
  total_atoms : Nat
  new_atoms : Nat
  audio_segments_count : Nat
  deriving DecidableEq, Repr

/-- The function `transcribe_and_process_audio` (main.py:126-170): transcription
(`transcribe_result`, covering `transcribe_audio` and the external
`srt.parse`) and `Translation(...)` construction are hard prerequisites
whose exceptions propagate (the `except` clause re-raises); afterwards the
three branches run and the function returns normally whatever their
outcomes. -/
def transcribe_and_process_audio (transcribe_result : Except PyErr (PyStr × List Cue))
    (store : Translation → Except PyErr α) (translateB : Translation → Except PyErr β)
    (extract : Translation → Except PyErr γ) : Except PyErr (JobResults α β γ) := do
  let (text, cues) ← transcribe_result
  let tr ← Translation.init text cues
  let results := process_translation_parallel tr (store tr) (translateB tr) (extract tr)
  pure { branches := results
         blocks_count := tr.get_block_count
         duration := tr.get_duration
         total_atoms := tr.get_total_atoms
         new_atoms := tr.get_new_atoms_count
         audio_segments_count := tr.get_audio_segments_count }

/-! ### Tag-delimiter predicates and sample data -/

/-- Does the input start with a numeric tag delimiter (`<i>` or `</i>`)? -/
def isTagAt (cs : PyStr) : Bool :=
  match cs with
  | '<' :: rest =>
    let rest2 := match rest with
      | '/' :: r => r
      | _ => rest
    let td := takeDigits rest2
    !td.1.isEmpty && (match td.2 with | '>' :: _ => true | _ => false)
  | _ => false

/-- Does the input contain a numeric tag delimiter anywhere? -/
def hasTag : PyStr → Bool
  | [] => false
  | c :: cs => isTagAt (c :: cs) || hasTag cs

/-- A minimal atom, used as concrete input. -/
def atomW : Atom := { value := ['w'], base_form := ['w'], part_of_speech := ['n'] }

/-- A minimal valid block, used as concrete input. -/
def blockX : Block := { start_time := 0, end_time := 1, value := ['x'] }

/-- A second minimal valid block. -/
def blockY : Block := { start_time := 1, end_time := 2, value := ['y'] }

/-- A one-block transcript, used as concrete input. -/
def transX : Translation := { blocks := [blockX] }

/-- A two-block transcript, used as concrete input. -/
def transXY : Translation := { blocks := [blockX, blockY] }

/-- The transcript parsed from the single cue `⟨0, 2, "hi"⟩`. -/
def trHi : Translation :=
  { transcription_text := [], blocks := [{ start_time := 0, end_time := 2, value := ['h', 'i'] }] }

/-- An atom with the given one-character surface value. -/
def mkAtomV (c : Char) : Atom := { value := [c], base_form := [c], part_of_speech := ['n'] }

/-- A two-block transcript spanning 5 distinct atom surface values
`a..e`, with `d` recurring in both blocks. -/
def transABCDE : Translation :=
  { blocks :=
      [{ start_time := 0, end_time := 1, value := ['x'],
         atoms := [mkAtomV 'a', mkAtomV 'b', mkAtomV 'c', mkAtomV 'd'] },
       { start_time := 1, end_time := 2, value := ['y'],
         atoms := [mkAtomV 'd', mkAtomV 'e'] }] }

/-- A one-block transcript with three distinct atom surface values
`a`, `b`, `c`. -/
def transABC : Translation :=
  { blocks :=
      [{ start_time := 0, end_time := 1, value := ['x'],
         atoms := [mkAtomV 'a', mkAtomV 'b', mkAtomV 'c'] }] }

/-- The per-value creation outcome in which `c`'s request permanently
fails (its retries exhausted with a 500) and the others succeed. -/
def createFailC : PyStr → Except PyErr PyStr :=
  fun v => if v = ['c'] then .error (.httpError 500) else .ok ('i' :: v)

/-- The default `Block`, for list indexing with a fallback. -/
instance : Inhabited Block := ⟨{ start_time := 0, end_time := 1, value := ['x'] }⟩


/-! ### Helper notions used by the theorems -/

/-- The segment invariant "token list has no two tokens with equal
surface value". -/
def atomsNoDupVals (atoms : List Atom) : Prop :=
  (atoms.map Atom.value).Nodup

instance (atoms : List Atom) : Decidable (atomsNoDupVals atoms) := by
  unfold atomsNoDupVals; infer_instance

/-- The exponential backoff delays of `n` consecutive sleeps starting at
`d`: `[d, 2d, 4d, ...]`. -/
def backoffs (d : ℚ) : Nat → List ℚ
  | 0 => []
  | n + 1 => d :: backoffs (d * 2) n

theorem foldl_add_atom (atoms : List Atom) (b : Block) :
    atoms.foldl Block.add_atom b = { b with atoms := b.atoms ++ atoms } := by
  induction atoms generalizing b with
  | nil => simp [Block.add_atom]
  | cons a rest ih => simp [Block.add_atom, ih]

/-! ### Retry characterization (claim C4) -/

theorem retryGo_all_fail (call : Nat → Except PyErr α) (m : Nat)
    (err : Nat → PyErr) (h : ∀ k, k ≤ m → call k = .error (err k)) :
    ∀ (n s : Nat) (d : ℚ) (sleeps : List ℚ), s + n = m + 1 → 1 ≤ n →
      retryGo call m (List.range' s n) d sleeps
        = (.error (err m), sleeps ++ backoffs d (n - 1)) := by
  intro n
  induction n with
  | zero => omega
  | succ n ih =>
    intro s d sleeps hsn _
    rw [List.range'_succ]
    have hs : s ≤ m := by omega
    simp only [retryGo, h s hs]
    match n, hsn with
    | 0, hsn =>
      have : s = m := by omega
      subst this
      simp [backoffs]
    | n + 1, hsn =>
      have hlt : s < m := by omega
      rw [if_pos hlt, ih (s + 1) (d * 2) (sleeps ++ [d]) (by omega) (by omega)]
      simp [backoffs]

theorem retryGo_first_success (call : Nat → Except PyErr α) (m j : Nat) (a : α)
    (hj : call j = .ok a) (hfail : ∀ k, k < j → ∃ e, call k = .error e) :
    ∀ (n s : Nat) (d : ℚ) (sleeps : List ℚ), s + n = m + 1 → s ≤ j → j ≤ m →
      retryGo call m (List.range' s n) d sleeps = (.ok a, sleeps ++ backoffs d (j - s)) := by
  intro n
  induction n with
  | zero => omega
  | succ n ih =>
    intro s d sleeps hsn hsj hjm
    rw [List.range'_succ]
    rcases Nat.eq_or_lt_of_le hsj with rfl | hlt
    · simp [retryGo, hj, backoffs]
    · obtain ⟨e, he⟩ := hfail s hlt
      simp only [retryGo, he]
      rw [if_pos (by omega), ih (s + 1) (d * 2) (sleeps ++ [d]) (by omega) (by omega) hjm]
      have hd : j - s = (j - (s + 1)) + 1 := by omega
      rw [hd]
      simp [backoffs]

/-- C4 (amended): the per-card retry wrappers retry on *every* failed
attempt, with no distinction between transient and permanent errors: any
exception (network, 5xx, or a permanent 4xx / malformed request alike) is
retried while attempts remain, sleeping the exponentially doubling
backoff delays `d, 2d, 4d, ...`; a request that fails on all
`max_retries + 1` attempts surfaces its last error only after all
attempts, and a first success at attempt `j` returns after `j` sleeps. -/
theorem retry_wrapper_retries_every_error (call : Nat → Except PyErr α)
    (max_retries : Nat) (d : ℚ) (err : Nat → PyErr) (j : Nat) (a : α) :
    ((∀ k, k ≤ max_retries → call k = .error (err k)) →
      create_single_card_with_retry call max_retries d
        = (.error (err max_retries), backoffs d max_retries) ∧
      create_single_block_card_with_retry call max_retries d
        = (.error (err max_retries), backoffs d max_retries)) ∧
    (j ≤ max_retries → call j = .ok a → (∀ k, k < j → ∃ e, call k = .error e) →
      create_single_card_with_retry call max_retries d = (.ok a, backoffs d j) ∧
      create_single_block_card_with_retry call max_retries d = (.ok a, backoffs d j)) := by
  constructor
  · intro h
    have := retryGo_all_fail call max_retries err h (max_retries + 1) 0 d []
      (by omega) (by omega)
    rw [← List.range_eq_range'] at this
    simp only [Nat.add_sub_cancel, List.nil_append] at this
    exact ⟨this, this⟩
  · intro hjm hok hfail
    have := retryGo_first_success call max_retries j a hok hfail (max_retries + 1) 0 d []
      (by omega) (by omega) hjm
    rw [← List.range_eq_range'] at this
    simp only [Nat.sub_zero, List.nil_append] at this
    exact ⟨this, this⟩

/-- C4 witness: a call that fails twice with a network error and succeeds
on the third attempt sleeps `[1, 2]` and returns the success. -/
theorem retry_wrapper_retries_every_error_witness :
    create_single_card_with_retry
      (fun k => if k < 2 then .error .networkError else .ok (['x'] : PyStr)) 3 1
      = (.ok ['x'], [1, 2]) ∧
    create_single_block_card_with_retry
      (fun k => if k < 2 then .error .networkError else .ok (['x'] : PyStr)) 3 1
      = (.ok ['x'], [1, 2]) := by
  have h := (retry_wrapper_retries_every_error
    (fun k => if k < 2 then .error .networkError else .ok (['x'] : PyStr))
    3 1 (fun _ => .networkError) 2 ['x']).2
    (by omega) (by norm_num) (fun k hk => ⟨.networkError, by simp [hk]⟩)
  have hb : backoffs 1 2 = [1, 2] := by norm_num [backoffs]
  rw [hb] at h
  exact h

/-- C4 counterexample: a permanently failing request (HTTP 404, a 4xx
response) is retried three times — the wrapper sleeps `[1, 2, 4]` and
surfaces the error only after the fourth attempt, not immediately after
the first. -/
theorem retry_permanent_error_retried_cx :
    create_single_card_with_retry
      (fun _ => (.error (.httpError 404) : Except PyErr PyStr)) 3 1
      = (.error (.httpError 404), [1, 2, 4]) ∧
    create_single_block_card_with_retry
      (fun _ => (.error (.httpError 404) : Except PyErr PyStr)) 3 1
      = (.error (.httpError 404), [1, 2, 4]) ∧
    ([1, 2, 4] : List ℚ) ≠ [] := by
  have h := retryGo_all_fail (fun _ => (.error (.httpError 404) : Except PyErr PyStr))
    3 (fun _ => .httpError 404) (fun k _ => rfl) 4 0 1 [] (by omega) (by omega)
  rw [← List.range_eq_range'] at h
  have hb : backoffs 1 (4 - 1) = [1, 2, 4] := by norm_num [backoffs]
  rw [hb] at h
  simp only [List.nil_append] at h
  exact ⟨h, h, by simp⟩

/-! ### Index handling of the per-block mutators (claims C9, C10) -/

/-- C10: the two per-block mutators validate indexes asymmetrically.  On
a transcript with at least one segment, `add_atoms_to_block` rejects
every negative index with its guard `IndexError`; `set_block_translation`
guards only the upper bound, so a negative index in `[-len, -1]` silently
writes the translation to the block counted from the end of the list
(Python negative indexing), and an index below `-len` raises the plain
list-subscript `IndexError`, not the guard's message. -/
theorem negative_index_asymmetry (t : Translation) (h : 1 ≤ t.blocks.length)
    (i : Int) (txt : PyStr) (atoms : List Atom) :
    (i < 0 → t.add_atoms_to_block i atoms = .error (.indexErrorGuard i)) ∧
    (-(t.blocks.length : Int) ≤ i → i ≤ -1 →
      t.set_block_translation i txt
        = .ok { t with blocks := (t.blocks.modify
            (fun b => { b with translated_value := some txt })
            ((t.blocks.length : Int) + i).toNat) }) ∧
    (i < -(t.blocks.length : Int) →
      t.set_block_translation i txt = .error .indexErrorList) := by
  refine ⟨fun hi => ?_, fun h1 h2 => ?_, fun hi => ?_⟩
  · unfold Translation.add_atoms_to_block
    rw [if_pos (Or.inr hi)]
  · unfold Translation.set_block_translation pyListIdx
    rw [if_neg (by omega), if_neg (by omega), if_pos h1]
    rfl
  · unfold Translation.set_block_translation pyListIdx
    rw [if_neg (by omega), if_neg (by omega), if_neg (by omega)]
    rfl

/-- C10 witness: on a two-block transcript, index `-1` is rejected by
`add_atoms_to_block` but accepted by `set_block_translation` (writing to
the last block), and index `-5` hits the list-subscript `IndexError`. -/
theorem negative_index_asymmetry_witness :
    (transXY.add_atoms_to_block (-1) [] = .error (.indexErrorGuard (-1))) ∧
    (transXY.set_block_translation (-1) ['z']
      = .ok { transXY with blocks := (transXY.blocks.modify
          (fun b => { b with translated_value := some ['z'] })
          ((transXY.blocks.length : Int) + -1).toNat) }) ∧
    (transXY.set_block_translation (-5) ['z'] = .error .indexErrorList) := by
  have h1 := negative_index_asymmetry transXY (by simp [transXY]) (-1) ['z'] []
  have h2 := negative_index_asymmetry transXY (by simp [transXY]) (-5) ['z'] []
  exact ⟨h1.1 (by omega), h1.2.1 (by simp [transXY]) (by omega), h2.2.2 (by simp [transXY])⟩

/-- C9 counterexample: `add_atoms_to_block` (which appends through
`add_atom` unconditionally) applied to a block satisfying the
no-duplicate-surface invariant with the same atom twice yields a token
list with two tokens of equal surface value — the public operations do
not preserve the invariant. -/
theorem add_atom_invariant_cx :
    atomsNoDupVals blockX.atoms ∧
    transX.add_atoms_to_block 0 [atomW, atomW]
      = .ok { transX with blocks := [{ blockX with atoms := [atomW, atomW] }] } ∧
    ¬ atomsNoDupVals [atomW, atomW] := by
  refine ⟨by decide, ?_, by decide⟩
  rfl

/-- C9 (amended): `add_atom` and `add_atoms_to_block` append atoms
without any duplicate check, so the no-duplicate-surface invariant is
preserved exactly when the incoming atoms' surface values are fresh: if
the block's existing atoms together with the added atoms have pairwise
distinct surface values, the updated block still satisfies the
invariant (and all other blocks are untouched); with a duplicated value
the invariant breaks, as the counterexample shows. -/
theorem add_atoms_nodup_when_fresh :
    (∀ (b : Block) (a : Atom), atomsNoDupVals (b.atoms ++ [a]) →
      atomsNoDupVals ((b.add_atom a).atoms)) ∧
    (∀ (t : Translation) (i : Nat) (atoms : List Atom) (hi : i < t.blocks.length),
      atomsNoDupVals ((t.blocks[i]).atoms ++ atoms) →
      ∃ t', t.add_atoms_to_block i atoms = .ok t' ∧
        t'.blocks.length = t.blocks.length ∧
        (∀ hi2 : i < t'.blocks.length,
          t'.blocks[i].atoms = t.blocks[i].atoms ++ atoms ∧
          atomsNoDupVals (t'.blocks[i].atoms)) ∧
        (∀ j, j ≠ i → ∀ hj : j < t'.blocks.length, ∀ hj2 : j < t.blocks.length,
          t'.blocks[j] = t.blocks[j])) := by
  constructor
  · intro b a hfresh
    simpa [Block.add_atom, atomsNoDupVals] using hfresh
  · intro t i atoms hi hfresh
    refine ⟨{ t with blocks := (t.blocks.modify
      (fun b => atoms.foldl Block.add_atom b) ((i : Int)).toNat) }, ?_, by simp, ?_, ?_⟩
    · unfold Translation.add_atoms_to_block
      rw [if_neg (by push_neg; omega)]
    · intro hi2
      simp only [Int.toNat_natCast]
      rw [List.getElem_modify_eq _ _ _ (by simpa using hi2)]
      rw [foldl_add_atom]
      exact ⟨rfl, hfresh⟩
    · intro j hj hj1 hj2
      simp only [Int.toNat_natCast]
      rw [List.getElem_modify_ne _ _ (fun hh => hj hh.symm) (by simpa using hj1)]

/-- C9 amended witness: adding two atoms with distinct fresh values to a
block keeps the invariant. -/
theorem add_atoms_nodup_when_fresh_witness :
    ∃ t', transX.add_atoms_to_block 0 [atomW] = .ok t' ∧
      t'.blocks.length = transX.blocks.length ∧
      (∀ hi2 : 0 < t'.blocks.length,
        t'.blocks[0].atoms = transX.blocks[0].atoms ++ [atomW] ∧
        atomsNoDupVals (t'.blocks[0].atoms)) ∧
      (∀ j, j ≠ 0 → ∀ hj : j < t'.blocks.length, ∀ hj2 : j < transX.blocks.length,
        t'.blocks[j] = transX.blocks[j]) := by
  exact add_atoms_nodup_when_fresh.2 transX 0 [atomW] (by decide) (by decide)

/-! ### Cue validation (claim C8) -/

theorem mapM_create_error (cues : List Cue)
    (h : ∃ c ∈ cues, c.start ≥ c.stop ∨ pyStrip c.content = []) :
    ∃ msg, (cues.mapM fun c => Block.create c.start c.stop c.content)
      = (.error (.valueError msg) : Except PyErr (List Block)) := by
  induction cues with
  | nil => simp at h
  | cons c rest ih =>
    rw [List.mapM_cons]
    by_cases hc1 : c.start ≥ c.stop
    · refine ⟨"Start time must be before end time", ?_⟩
      rw [Block.create, if_pos hc1]
      rfl
    · by_cases hc2 : pyStrip c.content = []
      · refine ⟨"Block value cannot be empty", ?_⟩
        rw [Block.create, if_neg hc1, if_pos hc2]
        rfl
      · have hrest : ∃ c ∈ rest, c.start ≥ c.stop ∨ pyStrip c.content = [] := by
          rcases h with ⟨c', hc', hbad⟩
          rcases List.mem_cons.mp hc' with rfl | hmem
          · exact absurd hbad (by simp [hc1, hc2])
          · exact ⟨c', hmem, hbad⟩
        obtain ⟨msg, hmsg⟩ := ih hrest
        refine ⟨msg, ?_⟩
        rw [Block.create, if_neg hc1, if_neg hc2]
        simp only [Bind.bind, Except.bind, hmsg]

/-- C8: a cue whose start timestamp is at or past its end timestamp, or a
cue with empty (whitespace-only) text, makes `Translation(...)`'s block
parsing raise the wrapped `ValueError` (the spec's `MalformedInputError`)
— no `Translation` object is produced. -/
theorem parse_rejects_malformed_cues (text : PyStr) (cues : List Cue) :
    ((∃ c ∈ cues, c.start ≥ c.stop) →
      ∃ msg, Translation.init text cues = .error (.parseWrapped (.valueError msg))) ∧
    ((∃ c ∈ cues, pyStrip c.content = []) →
      ∃ msg, Translation.init text cues = .error (.parseWrapped (.valueError msg))) := by
  constructor
  · intro h
    obtain ⟨msg, hmsg⟩ := mapM_create_error cues
      (by rcases h with ⟨c, hc, hbad⟩; exact ⟨c, hc, Or.inl hbad⟩)
    exact ⟨msg, by rw [Translation.init, hmsg]; rfl⟩
  · intro h
    obtain ⟨msg, hmsg⟩ := mapM_create_error cues
      (by rcases h with ⟨c, hc, hbad⟩; exact ⟨c, hc, Or.inr hbad⟩)
    exact ⟨msg, by rw [Translation.init, hmsg]; rfl⟩

/-- C8 witness: a cue with `start = end` and a cue with whitespace-only
content are each rejected. -/
theorem parse_rejects_malformed_cues_witness :
    (∃ msg, Translation.init [] [⟨2, 2, ['a']⟩]
      = .error (.parseWrapped (.valueError msg))) ∧
    (∃ msg, Translation.init [] [⟨0, 1, [' ']⟩]
      = .error (.parseWrapped (.valueError msg))) := by
  constructor
  · exact (parse_rejects_malformed_cues [] [⟨2, 2, ['a']⟩]).1
      ⟨⟨2, 2, ['a']⟩, by simp, by norm_num⟩
  · exact (parse_rejects_malformed_cues [] [⟨0, 1, [' ']⟩]).2
      ⟨⟨0, 1, [' ']⟩, by simp, by decide⟩

/-! ### Token deduplication (claim C6) -/

theorem dedupTokens_map_value (tokens : List MeCabToken) :
    ∀ seen, (dedupTokens tokens seen).map Atom.value
      = dedupFirstGo (tokens.map MeCabToken.surface) seen := by
  induction tokens with
  | nil => intro seen; simp [dedupTokens, dedupFirstGo]
  | cons tk rest ih =>
    intro seen
    by_cases h : tk.surface ∈ seen <;>
      simp [dedupTokens, dedupFirstGo, h, ih, mkAtomOfToken]

theorem dedupTokens_filter_seen (v : PyStr) (tokens : List MeCabToken) :
    ∀ seen, v ∈ seen →
      (dedupTokens tokens seen).filter (fun a => decide (a.value = v)) = [] := by
  induction tokens with
  | nil => intro seen _; simp [dedupTokens]
  | cons tk rest ih =>
    intro seen hv
    by_cases h : tk.surface ∈ seen
    · simp only [dedupTokens, if_pos h]
      exact ih seen hv
    · have hne : tk.surface ≠ v := fun hh => h (hh ▸ hv)
      simp only [dedupTokens, if_neg h, List.filter_cons]
      rw [if_neg (by simp [mkAtomOfToken, hne])]
      exact ih _ (by simp [hv])

theorem dedupTokens_filter_first (v : PyStr) (tokens : List MeCabToken) :
    ∀ seen, v ∉ seen →
      ∀ tk, tokens.find? (fun tk => decide (tk.surface = v)) = some tk →
        (dedupTokens tokens seen).filter (fun a => decide (a.value = v))
          = [mkAtomOfToken tk] := by
  induction tokens with
  | nil => intro seen _ tk h; simp at h
  | cons t rest ih =>
    intro seen hv tk hfind
    by_cases hts : t.surface = v
    · have heq : tk = t := by
        rw [List.find?_cons_of_pos _ (by simp [hts])] at hfind
        exact (Option.some.inj hfind).symm
      subst heq
      have hnotin : tk.surface ∉ seen := by simpa [hts] using hv
      simp only [dedupTokens, if_neg hnotin, List.filter_cons]
      rw [if_pos (by simp [mkAtomOfToken, hts])]
      rw [dedupTokens_filter_seen v rest _ (by simp [hts])]
    · rw [List.find?_cons_of_neg _ (by simp [hts])] at hfind
      by_cases h : t.surface ∈ seen
      · simp only [dedupTokens, if_pos h]
        exact ih seen hv tk hfind
      · simp only [dedupTokens, if_neg h, List.filter_cons]
        rw [if_neg (by simp [mkAtomOfToken, hts])]
        refine ih _ ?_ tk hfind
        simp only [List.mem_cons]
        push_neg
        exact ⟨fun hh => hts hh.symm, hv⟩

/-- C6: when a segment's tokenizer output contains the same surface form
more than once, extraction returns exactly one `Atom` with that surface
value, built (base form, part of speech, metadata) from the first
occurrence, and the atom list is in first-occurrence order of the
surface values. -/
theorem extract_dedup_first_occurrence (blockValue : PyStr)
    (tokens : List MeCabToken) (v : PyStr)
    (hne : pyStrip blockValue ≠ [])
    (hdup : 2 ≤ (tokens.filter (fun tk => decide (tk.surface = v))).length) :
    ((extract_atoms_from_block blockValue tokens).filter
        (fun a => decide (a.value = v))).length = 1 ∧
    (∃ tk, tokens.find? (fun tk => decide (tk.surface = v)) = some tk ∧
      (extract_atoms_from_block blockValue tokens).filter
        (fun a => decide (a.value = v)) = [mkAtomOfToken tk]) ∧
    (extract_atoms_from_block blockValue tokens).map Atom.value
      = dedupFirst (tokens.map MeCabToken.surface) := by
  have hx : extract_atoms_from_block blockValue tokens = dedupTokens tokens [] := by
    rw [extract_atoms_from_block, if_neg hne]
  have hsome : (tokens.find? (fun tk => decide (tk.surface = v))).isSome := by
    rw [List.find?_isSome]
    have : (tokens.filter (fun tk => decide (tk.surface = v))) ≠ [] := by
      intro hh; rw [hh] at hdup; simp at hdup
    obtain ⟨tk, htk⟩ := List.exists_mem_of_ne_nil _ this
    exact ⟨tk, List.mem_of_mem_filter htk, by
      have := List.of_mem_filter htk
      exact this⟩
  obtain ⟨tk, htk⟩ := Option.isSome_iff_exists.mp hsome
  have hfirst := dedupTokens_filter_first v tokens [] (by simp) tk htk
  rw [hx]
  exact ⟨by rw [hfirst]; rfl, ⟨tk, htk, hfirst⟩, dedupTokens_map_value tokens []⟩

/-- C6 witness: two tokens with surface `"w"` and different base forms
yield a single atom carrying the first token's data. -/
theorem extract_dedup_first_occurrence_witness :
    ((extract_atoms_from_block ['x']
        [⟨['w'], ['n'], [], none, none, none, ['b'], ['r'], ['p']⟩,
         ⟨['w'], ['v'], [], none, none, none, ['c'], ['r'], ['p']⟩]).filter
      (fun a => decide (a.value = ['w']))).length = 1 := by
  exact (extract_dedup_first_occurrence ['x']
    [⟨['w'], ['n'], [], none, none, none, ['b'], ['r'], ['p']⟩,
     ⟨['w'], ['v'], [], none, none, none, ['c'], ['r'], ['p']⟩]
    ['w'] (by decide) (by decide)).1

/-! ### Orchestrator failure handling (claim C5) -/

/-- C5: the job's outcome is an exception only when the transcription
prerequisite (transcription or `Translation(...)` parsing) itself fails;
with the prerequisite succeeding, *every* combination of branch outcomes
yields a normal result whose per-branch map holds each failed branch's
error as a structured value in that branch's slot, the other slots
carrying their branches' own results unaffected. -/
theorem job_completed_despite_branch_failures {α β γ : Type}
    (text : PyStr) (cues : List Cue) (tr : Translation)
    (store : Translation → Except PyErr α) (translateB : Translation → Except PyErr β)
    (extract : Translation → Except PyErr γ) :
    (Translation.init text cues = .ok tr →
      transcribe_and_process_audio (.ok (text, cues)) store translateB extract
        = .ok { branches := { store_audio := slotOf (store tr)
                              translate := slotOf (translateB tr)
                              extract_atoms := slotOf (extract tr)
                              translation_data := tr }
                blocks_count := tr.get_block_count
                duration := tr.get_duration
                total_atoms := tr.get_total_atoms
                new_atoms := tr.get_new_atoms_count
                audio_segments_count := tr.get_audio_segments_count }) ∧
    (∀ e, transcribe_and_process_audio (Except.error e) store translateB extract
      = .error e) ∧
    (∀ e, Translation.init text cues = .error e →
      transcribe_and_process_audio (.ok (text, cues)) store translateB extract
        = .error e) ∧
    (∀ e : PyErr, slotOf (α := α) (.error e) = .error e) := by
  refine ⟨fun h => ?_, fun e => rfl, fun e h => ?_, fun e => rfl⟩
  · show (Except.ok (text, cues) >>= _) = _
    simp only [Bind.bind, Except.bind, h, process_translation_parallel]
    rfl
  · show (Except.ok (text, cues) >>= _) = _
    simp only [Bind.bind, Except.bind, h]

/-- C5 witness: on a one-cue transcript with the archive and extraction
branches failing and translation succeeding, the job returns normally
with the two errors in their slots. -/
theorem job_completed_despite_branch_failures_witness :
    transcribe_and_process_audio (.ok (([] : PyStr), [⟨0, 2, ['h', 'i']⟩]))
      (fun _ => (.error .networkError : Except PyErr Nat))
      (fun _ => (.ok 7 : Except PyErr Nat))
      (fun _ => (.error (.httpError 500) : Except PyErr Nat))
      = .ok { branches := { store_audio := slotOf (.error .networkError)
                            translate := slotOf (.ok 7)
                            extract_atoms := slotOf (.error (.httpError 500))
                            translation_data := trHi }
              blocks_count := trHi.get_block_count
              duration := trHi.get_duration
              total_atoms := trHi.get_total_atoms
              new_atoms := trHi.get_new_atoms_count
              audio_segments_count := trHi.get_audio_segments_count } := by
  exact (job_completed_despite_branch_failures [] [⟨0, 2, ['h', 'i']⟩] trHi
    (fun _ => .error .networkError) (fun _ => .ok 7)
    (fun _ => .error (.httpError 500))).1 rfl

/-! ### Token-card phase (claims C7, C1) -/

theorem mem_dedupFirst_go (x : PyStr) :
    ∀ (l seen : List PyStr), x ∈ dedupFirstGo l seen ↔ (x ∈ l ∧ x ∉ seen) := by
  intro l
  induction l with
  | nil => intro seen; simp [dedupFirstGo]
  | cons y ys ih =>
    intro seen
    by_cases hy : y ∈ seen
    · rw [dedupFirstGo, if_pos hy, ih]
      constructor
      · rintro ⟨h1, h2⟩; exact ⟨List.mem_cons_of_mem _ h1, h2⟩
      · rintro ⟨h1, h2⟩
        rcases List.mem_cons.mp h1 with rfl | h1
        · exact absurd hy h2
        · exact ⟨h1, h2⟩
    · rw [dedupFirstGo, if_neg hy]
      rw [List.mem_cons, ih]
      constructor
      · rintro (rfl | ⟨h1, h2⟩)
        · exact ⟨List.mem_cons_self x ys, hy⟩
        · exact ⟨List.mem_cons_of_mem _ h1, fun hs => h2 (List.mem_cons_of_mem _ hs)⟩
      · rintro ⟨hx, h2⟩
        by_cases hxy : x = y
        · exact Or.inl hxy
        · rcases List.mem_cons.mp hx with rfl | hx2
          · exact Or.inl rfl
          · exact Or.inr ⟨hx2, fun hs => (List.mem_cons.mp hs).elim hxy h2⟩

theorem nodup_dedupFirst_go :
    ∀ (l seen : List PyStr), (dedupFirstGo l seen).Nodup := by
  intro l
  induction l with
  | nil => intro seen; simp [dedupFirstGo]
  | cons y ys ih =>
    intro seen
    by_cases hy : y ∈ seen
    · rw [dedupFirstGo, if_pos hy]; exact ih seen
    · rw [dedupFirstGo, if_neg hy]
      refine List.Nodup.cons ?_ (ih (y :: seen))
      intro hmem
      exact ((mem_dedupFirst_go y ys (y :: seen)).mp hmem).2 (List.mem_cons_self y seen)

theorem mem_dedupFirst (x : PyStr) (l : List PyStr) : x ∈ dedupFirst l ↔ x ∈ l := by
  rw [dedupFirst, mem_dedupFirst_go]
  simp

theorem nodup_dedupFirst (l : List PyStr) : (dedupFirst l).Nodup :=
  nodup_dedupFirst_go l []

theorem lookup_pairs_of_not_mem (f : PyStr → Option PyStr) (v : PyStr) :
    ∀ (l : List PyStr), v ∉ l →
      ((l.filterMap fun w => (f w).map fun id => (w, id)).lookup v) = none := by
  intro l
  induction l with
  | nil => intro _; simp
  | cons x xs ih =>
    intro hv
    have hvx : v ≠ x := fun hh => hv (hh ▸ List.mem_cons_self x xs)
    have hvxs : v ∉ xs := fun hh => hv (List.mem_cons_of_mem _ hh)
    cases hfx : f x with
    | none => simpa [List.filterMap_cons, hfx] using ih hvxs
    | some id =>
      have hbeq : (v == x) = false := by simpa using hvx
      simp only [List.filterMap_cons, hfx, Option.map_some', List.lookup_cons, hbeq]
      exact ih hvxs

theorem lookup_pairs_of_mem (f : PyStr → Option PyStr) (v : PyStr) :
    ∀ (l : List PyStr), l.Nodup → v ∈ l →
      ((l.filterMap fun w => (f w).map fun id => (w, id)).lookup v) = f v := by
  intro l
  induction l with
  | nil => intro _ h; simp at h
  | cons x xs ih =>
    intro hnd hv
    rcases List.mem_cons.mp hv with rfl | hv2
    · have hnotin : v ∉ xs := (List.nodup_cons.mp hnd).1
      cases hfx : f v with
      | none =>
        have hrest := lookup_pairs_of_not_mem f v xs hnotin
        simpa [List.filterMap_cons, hfx] using hrest
      | some id => simp [List.filterMap_cons, hfx]
    · have hvx : v ≠ x := fun hh => (List.nodup_cons.mp hnd).1 (hh ▸ hv2)
      have hrest := ih (List.nodup_cons.mp hnd).2 hv2
      cases hfx : f x with
      | none => simpa [List.filterMap_cons, hfx] using hrest
      | some id =>
        have hbeq : (v == x) = false := by simpa using hvx
        simp only [List.filterMap_cons, hfx, Option.map_some', List.lookup_cons, hbeq]
        exact hrest

theorem lookup_existing_card_ids (t : Translation) (dbLookup : PyStr → Option PyStr)
    (v : PyStr) (hv : v ∈ unique_values t) :
    (existing_card_ids t dbLookup).lookup v = dbLookup v :=
  lookup_pairs_of_mem dbLookup v (unique_values t)
    (nodup_dedupFirst _) hv

theorem values_to_create_eq (t : Translation) (dbLookup : PyStr → Option PyStr) :
    values_to_create t dbLookup
      = (unique_values t).filter fun v => (dbLookup v).isNone := by
  rw [values_to_create]
  apply List.filter_congr
  intro v hv
  rw [lookup_existing_card_ids t dbLookup v hv]

theorem collectCreations_all_ok (create : PyStr → Except PyErr PyStr)
    (ids : PyStr → PyStr) :
    ∀ (vs : List PyStr), (∀ v ∈ vs, create v = .ok (ids v)) →
      collectCreations create vs = (vs.map fun v => (v, ids v), []) := by
  intro vs
  induction vs with
  | nil => intro _; rfl
  | cons v rest ih =>
    intro h
    rw [collectCreations, ih (fun w hw => h w (List.mem_cons_of_mem _ hw)),
      h v (List.mem_cons_self v rest)]
    rfl

theorem lookup_map_pair_self (ids : PyStr → PyStr) (v : PyStr) :
    ∀ (vs : List PyStr), v ∈ vs →
      ((vs.map fun w => (w, ids w)).lookup v) = some (ids v) := by
  intro vs
  induction vs with
  | nil => intro h; simp at h
  | cons x xs ih =>
    intro hv
    rcases List.mem_cons.mp hv with rfl | hv2
    · simp
    · by_cases hvx : v = x
      · subst hvx; simp
      · have hbeq : (v == x) = false := by simpa using hvx
        simp only [List.map_cons, List.lookup_cons, hbeq]
        exact ih hv2

theorem mapM_assign_atoms_ok (all : List (PyStr × PyStr)) :
    ∀ (atoms : List Atom), (∀ a ∈ atoms, (all.lookup a.value).isSome) →
      ∃ atoms', atoms.mapM (assignAtom all) = (.ok atoms' : Except PyErr (List Atom)) ∧
        atoms'.length = atoms.length ∧ ∀ a ∈ atoms', a.card_id.isSome := by
  intro atoms
  induction atoms with
  | nil => exact fun _ => ⟨[], rfl, rfl, by simp⟩
  | cons a rest ih =>
    intro h
    obtain ⟨id, hid⟩ := Option.isSome_iff_exists.mp (h a (List.mem_cons_self a rest))
    obtain ⟨atoms', hok, hlen, hall⟩ := ih fun a ha => h a (List.mem_cons_of_mem _ ha)
    refine ⟨a.set_card_id id :: atoms', ?_, by simp [hlen], ?_⟩
    · rw [List.mapM_cons]
      show (assignAtom all a >>= _) = _
      rw [assignAtom, hid]
      show (Except.ok (a.set_card_id id) >>= _) = _
      simp only [Bind.bind, Except.bind, hok]
      rfl
    · intro x hx
      rcases List.mem_cons.mp hx with rfl | hx2
      · simp [Atom.set_card_id]
      · exact hall x hx2

theorem mapM_assign_blocks_ok (all : List (PyStr × PyStr)) :
    ∀ (bs : List Block), (∀ b ∈ bs, ∀ a ∈ b.atoms, (all.lookup a.value).isSome) →
      ∃ bs', bs.mapM (assignBlock all) = (.ok bs' : Except PyErr (List Block)) ∧
        ∀ b ∈ bs', ∀ a ∈ b.atoms, a.card_id.isSome := by
  intro bs
  induction bs with
  | nil => exact fun _ => ⟨[], rfl, by simp⟩
  | cons b rest ih =>
    intro hb
    obtain ⟨atoms', ha1, _, ha3⟩ := mapM_assign_atoms_ok all b.atoms
      (hb b (List.mem_cons_self b rest))
    obtain ⟨bs', hb1, hb2⟩ := ih fun b hbm => hb b (List.mem_cons_of_mem _ hbm)
    refine ⟨{ b with atoms := atoms' } :: bs', ?_, ?_⟩
    · rw [List.mapM_cons]
      show (assignBlock all b >>= _) = _
      rw [assignBlock, ha1]
      show (Except.ok _ >>= _) = _
      simp only [Bind.bind, Except.bind, hb1]
      rfl
    · intro b' hb'
      rcases List.mem_cons.mp hb' with rfl | hb'2
      · exact ha3
      · exact hb2 b' hb'2

theorem assignCardIds_all_ok (all : List (PyStr × PyStr)) (t : Translation)
    (h : ∀ a ∈ t.atomsList, (all.lookup a.value).isSome) :
    ∃ t', assignCardIds all t = .ok t' ∧
      ∀ b ∈ t'.blocks, ∀ a ∈ b.atoms, a.card_id.isSome := by
  obtain ⟨bs', h1, h2⟩ := mapM_assign_blocks_ok all t.blocks (by
    intro b hb a ha
    exact h a (by rw [Translation.atomsList]; exact List.mem_flatMap.mpr ⟨b, hb, ha⟩))
  refine ⟨{ t with blocks := bs' }, ?_, h2⟩
  rw [assignCardIds, h1]
  rfl

theorem mem_unique_values (t : Translation) (a : Atom) (ha : a ∈ t.atomsList) :
    a.value ∈ unique_values t := by
  rw [unique_values, mem_dedupFirst]
  exact List.mem_map_of_mem _ ha

theorem length_existing_card_ids (t : Translation) (dbLookup : PyStr → Option PyStr) :
    (existing_card_ids t dbLookup).length
      = ((unique_values t).filter fun v => (dbLookup v).isSome).length := by
  rw [existing_card_ids]
  induction unique_values t with
  | nil => rfl
  | cons v rest ih =>
    cases h : dbLookup v with
    | none => simpa [List.filterMap_cons, h, List.filter_cons] using ih
    | some id => simpa [List.filterMap_cons, h, List.filter_cons] using ih

/-- C7: with 5 distinct token surface values of which exactly 2 get an
identifier from the batched lookup, the token-card phase submits exactly
3 creation requests (one per value lacking an identifier), and — the
requests succeeding — returns normally with `created = 3`,
`existing = 2`, no creation errors, and a remote card identifier
assigned on every token of every segment. -/
theorem atom_cards_create_only_missing (t : Translation)
    (dbLookup : PyStr → Option PyStr) (create : PyStr → Except PyErr PyStr)
    (ids : PyStr → PyStr)
    (hcreate : ∀ v, create v = .ok (ids v))
    (h5 : (unique_values t).length = 5)
    (h2 : ((unique_values t).filter fun v => (dbLookup v).isSome).length = 2) :
    (values_to_create t dbLookup).length = 3 ∧
    ∃ t' res, create_atom_cards t dbLookup create = .ok (t', res) ∧
      res.atom_cards_created_count = 3 ∧
      res.atom_cards_existing_count = 2 ∧
      res.atom_cards_creation_errors = [] ∧
      ∀ b ∈ t'.blocks, ∀ a ∈ b.atoms, a.card_id.isSome := by
  have hn3 : (values_to_create t dbLookup).length = 3 := by
    rw [values_to_create_eq]
    have hsplit := List.length_eq_countP_add_countP
      (p := fun v => (dbLookup v).isSome) (unique_values t)
    rw [List.countP_eq_length_filter, List.countP_eq_length_filter, h2, h5] at hsplit
    have hco : ((unique_values t).filter fun v => ¬(dbLookup v).isSome = true).length
        = ((unique_values t).filter fun v => (dbLookup v).isNone).length := by
      congr 1
      apply List.filter_congr
      intro v _
      cases dbLookup v <;> simp
    omega
  refine ⟨hn3, ?_⟩
  have hcoll := collectCreations_all_ok create ids (values_to_create t dbLookup)
    (fun v _ => hcreate v)
  have hcover : ∀ a ∈ t.atomsList,
      (((existing_card_ids t dbLookup)
        ++ ((values_to_create t dbLookup).map fun v => (v, ids v))).lookup a.value).isSome := by
    intro a ha
    have hv := mem_unique_values t a ha
    rw [List.lookup_append]
    cases hdb : dbLookup a.value with
    | some id => rw [lookup_existing_card_ids t dbLookup _ hv, hdb]; rfl
    | none =>
      rw [lookup_existing_card_ids t dbLookup _ hv, hdb, Option.none_or]
      rw [lookup_map_pair_self ids a.value (values_to_create t dbLookup) (by
        rw [values_to_create_eq, List.mem_filter]
        exact ⟨hv, by rw [hdb]; rfl⟩)]
      rfl
  obtain ⟨t', ht', hall⟩ := assignCardIds_all_ok
    ((existing_card_ids t dbLookup)
      ++ ((values_to_create t dbLookup).map fun v => (v, ids v))) t hcover
  refine ⟨t',
    ⟨((values_to_create t dbLookup).map fun v => (v, ids v)).length,
      (existing_card_ids t dbLookup).length,
      ((existing_card_ids t dbLookup)
        ++ ((values_to_create t dbLookup).map fun v => (v, ids v))).length,
      []⟩, ?_, ?_, ?_, rfl, hall⟩
  · simp only [create_atom_cards, hcoll, ht']
    rfl
  · simpa using hn3
  · exact (length_existing_card_ids t dbLookup).trans h2

/-- C7 witness: on `transABCDE` with `a` and `b` already stored remotely
and creation succeeding, exactly 3 requests are issued and every atom of
every block ends up with an identifier. -/
theorem atom_cards_create_only_missing_witness :
    (values_to_create transABCDE
      (fun v => if v = ['a'] ∨ v = ['b'] then some ('d' :: v) else none)).length = 3 ∧
    ∃ t' res, create_atom_cards transABCDE
        (fun v => if v = ['a'] ∨ v = ['b'] then some ('d' :: v) else none)
        (fun v => .ok ('i' :: v)) = .ok (t', res) ∧
      res.atom_cards_created_count = 3 ∧
      res.atom_cards_existing_count = 2 ∧
      res.atom_cards_creation_errors = [] ∧
      ∀ b ∈ t'.blocks, ∀ a ∈ b.atoms, a.card_id.isSome := by
  exact atom_cards_create_only_missing transABCDE
    (fun v => if v = ['a'] ∨ v = ['b'] then some ('d' :: v) else none)
    (fun v => .ok ('i' :: v)) (fun v => 'i' :: v)
    (fun v => rfl) (by decide) (by decide)

/-- C1: evaluating `create_atom_cards` at the failing input.  With three
distinct values submitted, none existing, and exactly one (`c`) failing
permanently while `a` and `b` succeed, the function does *not* return
normally with a partial-failure report: the final assignment loop
`atom.set_card_id(all_card_ids[atom.value])` raises `KeyError('c')`,
because the failed value has no entry in the merged id map. -/
theorem create_atom_cards_partial_failure_keyerror :
    createFailC ['a'] = .ok ['i', 'a'] ∧
    createFailC ['b'] = .ok ['i', 'b'] ∧
    createFailC ['c'] = .error (.httpError 500) ∧
    create_atom_cards transABC (fun _ => none) createFailC
      = .error (.keyError ['c']) := by
  exact ⟨rfl, rfl, rfl, rfl⟩

/-! ### Decode and the per-block assignment (claim C2) -/

theorem set_block_translation_nat_ok (t : Translation) (i : Nat)
    (hi : i < t.blocks.length) (x : PyStr) :
    t.set_block_translation i x = .ok { t with blocks := (t.blocks.modify
      (fun b => { b with translated_value := some x }) i) } := by
  unfold Translation.set_block_translation pyListIdx
  rw [if_neg (by omega), if_pos (by omega), if_pos (by exact_mod_cast hi)]
  simp [Except.map]

theorem assign_loop_err (L : List PyStr) (N : Nat) :
    ∀ (n s : Nat) (acc : Translation), acc.blocks.length = N → s + n = N →
      L.length < N → s ≤ L.length →
      (List.range' s n).foldlM (fun acc i =>
          match L.get? i with
          | none => Except.error PyErr.indexErrorList
          | some x => acc.set_block_translation i x) acc
        = .error .indexErrorList := by
  intro n
  induction n with
  | zero => omega
  | succ n ih =>
    intro s acc hlen hsn hLN hsL
    rw [List.range'_succ, List.foldlM_cons]
    cases hg : L.get? s with
    | none =>
      show (Except.error PyErr.indexErrorList >>= _) = _
      rfl
    | some x =>
      have hs : s < L.length := by
        by_contra hcon
        rw [List.get?_eq_none.mpr (by omega)] at hg
        exact absurd hg (by simp)
      have hsN : s < acc.blocks.length := by omega
      show (acc.set_block_translation (↑s) x >>= _) = _
      rw [set_block_translation_nat_ok acc s hsN x]
      show (Except.ok _ >>= _) = _
      simp only [Bind.bind, Except.bind]
      exact ih (s + 1) _ (by simpa using hlen) (by omega) hLN (by omega)

theorem assign_loop_ok (L : List PyStr) (N : Nat) :
    ∀ (n s : Nat) (acc : Translation), acc.blocks.length = N → s + n = N →
      N ≤ L.length →
      ∃ t', (List.range' s n).foldlM (fun acc i =>
          match L.get? i with
          | none => Except.error PyErr.indexErrorList
          | some x => acc.set_block_translation i x) acc
        = .ok t' := by
  intro n
  induction n with
  | zero => exact fun s acc _ _ _ => ⟨acc, rfl⟩
  | succ n ih =>
    intro s acc hlen hsn hNL
    rw [List.range'_succ, List.foldlM_cons]
    have hs : s < L.length := by omega
    have hx : L.get? s = some (L.get ⟨s, hs⟩) := List.get?_eq_get hs
    rw [hx]
    have hsN : s < acc.blocks.length := by omega
    show ∃ t', (acc.set_block_translation (↑s) (L.get ⟨s, hs⟩) >>= _) = .ok t'
    rw [set_block_translation_nat_ok acc s hsN _]
    show ∃ t', (Except.ok _ >>= _) = .ok t'
    simp only [Bind.bind, Except.bind]
    exact ih (s + 1) _ (by simpa using hlen) (by omega) hNL

/-- C2 (amended): decoding never raises — `decode_xml` is a total
function returning whatever tag pairs it finds, with no check that the
indexes `0..N-1` are present or that the count matches the segment count
(the code has no `TagMismatchError`).  The failure the claim describes
surfaces one step later and in a different form: `translate`'s
per-block assignment loop subscripts the decoded list, raising the plain
list `IndexError` exactly when the decoded count is *less than* the
segment count; when the decoded count is at least the segment count the
loop completes normally, even if some index in `0..N-1` never matched. -/
theorem decode_total_translate_index_error (t : Translation) (output : PyStr) :
    ((decode_xml output).length < t.get_block_count →
      translate_decode_assign t output = .error .indexErrorList) ∧
    (t.get_block_count ≤ (decode_xml output).length →
      ∃ t', translate_decode_assign t output = .ok t') := by
  constructor
  · intro h
    unfold translate_decode_assign
    rw [List.range_eq_range']
    exact assign_loop_err (decode_xml output) t.get_block_count
      t.get_block_count 0 t rfl (by omega) h (by omega)
  · intro h
    unfold translate_decode_assign
    rw [List.range_eq_range']
    exact assign_loop_ok (decode_xml output) t.get_block_count
      t.get_block_count 0 t rfl (by omega) h

unseal List.merge List.mergeSort findall in
/-- C2 amended witness: on the two-segment transcript, a decoded count
of 1 raises `IndexError` and a decoded count of 3 completes. -/
theorem decode_total_translate_index_error_witness :
    translate_decode_assign transXY ("<0>hi</0>".toList) = .error .indexErrorList ∧
    ∃ t', translate_decode_assign transXY ("<0>a</0> <1>b</1> <2>c</2>".toList) = .ok t' := by
  constructor
  · exact (decode_total_translate_index_error transXY ("<0>hi</0>".toList)).1 (by decide)
  · exact (decode_total_translate_index_error transXY
      ("<0>a</0> <1>b</1> <2>c</2>".toList)).2 (by decide)

unseal List.merge List.mergeSort findall in
/-- C2 counterexample: for the two-segment transcript, decoding a tagged
text in which index 1 has no `<1>...</1>` pair does *not* fail — it
returns the one decoded entry; and when the decoded count (3) differs
from the segment count (2), the decode-and-assign step completes
normally instead of failing.  No `TagMismatchError` exists in the
code. -/
theorem decode_missing_index_no_error_cx :
    decode_xml ("<0>hi</0>".toList) = [['h', 'i']] ∧
    translate_decode_assign transXY ("<0>a</0> <1>b</1> <2>c</2>".toList)
      = .ok { transcription_text := []
              blocks := [{ start_time := 0, end_time := 1, value := ['x'],
                           translated_value := some ['a'] },
                         { start_time := 1, end_time := 2, value := ['y'],
                           translated_value := some ['b'] }] } := by
  exact ⟨rfl, rfl⟩

/-! ### The round-trip law (claim C3)

The claim's precondition — segment texts containing no literal
`<digits>...</digits>` tag delimiters — is formalized as `hasTag`:
no suffix of the text starts with `<`, an optional `/`, one or more
digits and `>`. -/

theorem takeDigits_digits_append (ds : PyStr) (hds : ∀ c ∈ ds, c.isDigit)
    (c : Char) (hc : ¬ c.isDigit = true) (rest : PyStr) :
    takeDigits (ds ++ c :: rest) = (ds, c :: rest) := by
  induction ds with
  | nil => simp [takeDigits, hc]
  | cons d ds ih =>
    have hd : d.isDigit := hds d (List.mem_cons_self d ds)
    have hih := ih (fun x hx => hds x (List.mem_cons_of_mem _ hx))
    simp only [List.cons_append, takeDigits, hd, if_pos]
    show (d :: (takeDigits (ds ++ c :: rest)).1, (takeDigits (ds ++ c :: rest)).2) = _
    rw [hih]

theorem isTagAt_closeTag_append (ds : PyStr) (hne : ds ≠ [])
    (hds : ∀ c ∈ ds, c.isDigit) (u : PyStr) :
    isTagAt (closeTag ds ++ u) = true := by
  have : closeTag ds ++ u = '<' :: '/' :: (ds ++ '>' :: u) := by
    simp [closeTag]
  rw [this, isTagAt]
  rw [takeDigits_digits_append ds hds '>' (by decide) u]
  simp [hne]

theorem hasTag_of_isTagAt {s : PyStr} (h : isTagAt s = true) : hasTag s = true := by
  cases s with
  | nil => exact absurd h (by simp [isTagAt])
  | cons c cs => simp [hasTag, h]

theorem hasTag_cons_false {c : Char} {cs : PyStr} (h : hasTag (c :: cs) = false) :
    isTagAt (c :: cs) = false ∧ hasTag cs = false := by
  rw [hasTag, Bool.or_eq_false_iff] at h
  exact h

/-- A close tag cannot begin inside tag-free text: it would either put a
whole tag into the text, or force the close tag to overlap itself, which
its shape (`<` only in first position) forbids. -/
theorem not_prefix_close (ds : PyStr) (hne : ds ≠ [])
    (hds : ∀ c ∈ ds, c.isDigit) (s : PyStr) (hs : s ≠ [])
    (htag : hasTag s = false) (r : PyStr) :
    ¬ (closeTag ds <+: s ++ (closeTag ds ++ r)) := by
  intro hpre
  have hsp : s <+: s ++ (closeTag ds ++ r) := List.prefix_append s _
  have hlt : ∀ c ∈ ('/' :: (ds ++ ['>']) : PyStr), c ≠ '<' := by
    intro c hc
    rcases List.mem_cons.mp hc with rfl | hc2
    · decide
    · rcases List.mem_append.mp hc2 with hc3 | hc4
      · intro hh
        subst hh
        exact absurd (hds _ hc3) (by decide)
      · simp only [List.mem_singleton] at hc4
        subst hc4
        decide
  rcases List.prefix_or_prefix_of_prefix hpre hsp with hcs | hsc
  · obtain ⟨u, hu⟩ := hcs
    have : isTagAt s = true := by
      rw [← hu]
      exact isTagAt_closeTag_append ds hne hds u
    rw [hasTag_of_isTagAt this] at htag
    exact absurd htag (by simp)
  · obtain ⟨u, hu⟩ := hsc
    obtain ⟨tt, htt⟩ := hpre
    cases u with
    | nil =>
      rw [List.append_nil] at hu
      have : isTagAt s = true := by
        rw [hu]
        have := isTagAt_closeTag_append ds hne hds []
        rwa [List.append_nil] at this
      rw [hasTag_of_isTagAt this] at htag
      exact absurd htag (by simp)
    | cons cu u' =>
      have hcu : cu = '<' := by
        have h1 : (s ++ cu :: u') ++ tt = s ++ (closeTag ds ++ r) := by
          rw [hu, htt]
        rw [List.append_assoc] at h1
        have h2 : (cu :: u') ++ tt = closeTag ds ++ r :=
          List.append_cancel_left h1
        rw [closeTag] at h2
        exact (List.cons.injEq _ _ _ _).mp h2 |>.1
      subst hcu
      cases s with
      | nil => exact hs rfl
      | cons cs0 s₂ =>
        have hcs0 : cs0 = '<' := by
          rw [closeTag] at hu
          exact ((List.cons.injEq _ _ _ _).mp hu).1
        subst hcs0
        have hrest : s₂ ++ '<' :: u' = '/' :: (ds ++ ['>']) := by
          rw [closeTag] at hu
          exact ((List.cons.injEq _ _ _ _).mp hu).2
        have : '<' ∈ ('/' :: (ds ++ ['>']) : PyStr) := by
          rw [← hrest]
          exact List.mem_append_right _ (List.mem_cons_self _ _)
        exact hlt '<' this rfl

theorem findClose_append (ds : PyStr) (hne : ds ≠ [])
    (hds : ∀ c ∈ ds, c.isDigit) (content : PyStr)
    (hct : hasTag content = false) (r : PyStr) :
    findClose (closeTag ds) (content ++ (closeTag ds ++ r)) = some (content, r) := by
  induction content with
  | nil =>
    rw [List.nil_append]
    show findClose (closeTag ds) ('<' :: ('/' :: (ds ++ ['>']) ++ r)) = _
    rw [findClose]
    have hshape : closeTag ds ++ r = '<' :: ('/' :: (ds ++ ['>']) ++ r) := by
      simp [closeTag]
    have hpc : (closeTag ds).isPrefixOf ('<' :: ('/' :: (ds ++ ['>']) ++ r)) = true := by
      rw [← hshape, List.isPrefixOf_iff_prefix]
      exact List.prefix_append _ _
    rw [if_pos hpc]
    rw [← hshape, List.drop_left]
  | cons c content' ih =>
    obtain ⟨h1, h2⟩ := hasTag_cons_false hct
    rw [List.cons_append, findClose]
    rw [if_neg (by
      rw [ List.isPrefixOf_iff_prefix]
      have := not_prefix_close ds hne hds (c :: content') (by simp) hct (r := r)
      simpa [List.append_assoc] using this)]
    rw [ih h2]
    rfl

theorem digitChar_isDigit (d : Nat) : (digitChar d).isDigit = true := by
  unfold digitChar
  split <;> rfl

theorem digitVal_digitChar (d : Nat) (h : d < 10) : digitVal (digitChar d) = d := by
  interval_cases d <;> rfl

theorem natDigits_ne_nil (n : Nat) : natDigits n ≠ [] := by
  rw [natDigits]
  split <;> simp

theorem natDigits_digits (n : Nat) : ∀ c ∈ natDigits n, c.isDigit = true := by
  induction n using Nat.strong_induction_on with
  | _ n ih =>
    rw [natDigits]
    split
    · intro c hc
      simp only [List.mem_singleton] at hc
      subst hc
      exact digitChar_isDigit n
    · rename_i h
      intro c hc
      rcases List.mem_append.mp hc with h1 | h2
      · exact ih (n / 10) (Nat.div_lt_self (by omega) (by omega)) c h1
      · simp only [List.mem_singleton] at h2
        subst h2
        exact digitChar_isDigit (n % 10)

theorem digitsVal_append_one (l : PyStr) (c : Char) :
    digitsVal (l ++ [c]) = 10 * digitsVal l + digitVal c := by
  unfold digitsVal
  rw [List.foldl_append]
  rfl

theorem digitsVal_natDigits (n : Nat) : digitsVal (natDigits n) = n := by
  induction n using Nat.strong_induction_on with
  | _ n ih =>
    rw [natDigits]
    split
    · rename_i h
      show digitsVal [digitChar n] = n
      unfold digitsVal
      simp [digitVal_digitChar n h]
    · rename_i h
      rw [digitsVal_append_one, ih (n / 10) (Nat.div_lt_self (by omega) (by omega)),
        digitVal_digitChar (n % 10) (by omega)]
      omega

theorem findall_cons (c : Char) (cs : PyStr) :
    findall (c :: cs) = match matchAt (c :: cs) with
      | some x => (x.1, x.2.1) :: findall x.2.2
      | none => findall cs := by
  rw [findall]
  rcases h : matchAt (c :: cs) with _ | ⟨⟨ds, content, after⟩⟩ <;> simp [h]

theorem matchAt_encode (text : PyStr) (i : Nat) (suffix : PyStr)
    (hct : hasTag text = false) :
    matchAt ('<' :: (natDigits i ++ '>' :: (text ++ (closeTag (natDigits i) ++ suffix))))
      = some (natDigits i, text, suffix) := by
  have hne := natDigits_ne_nil i
  have hds := natDigits_digits i
  have htd := takeDigits_digits_append (natDigits i) hds '>' (by decide)
    (text ++ (closeTag (natDigits i) ++ suffix))
  simp only [matchAt, htd, if_true]
  rw [if_neg (by simpa [List.isEmpty_iff] using hne)]
  rw [findClose_append (natDigits i) hne hds text hct suffix]

theorem findall_encode_append (text : PyStr) (i : Nat) (suffix : PyStr)
    (hct : hasTag text = false) :
    findall (encode_xml text i ++ suffix) = (natDigits i, text) :: findall suffix := by
  have heq : encode_xml text i ++ suffix
      = '<' :: (natDigits i ++ '>' :: (text ++ (closeTag (natDigits i) ++ suffix))) := by
    simp [encode_xml, closeTag]
  rw [heq, findall_cons, matchAt_encode text i suffix hct]

theorem findall_sep (cs : PyStr) : findall (' ' :: cs) = findall cs := by
  rw [findall_cons]
  have : matchAt (' ' :: cs) = none := by
    simp only [matchAt]
    rw [if_neg (by decide)]
  rw [this]

theorem findall_join (f : Nat → PyStr) :
    ∀ (l : List Nat), (∀ i ∈ l, hasTag (f i) = false) →
      findall (joinSpace (l.map fun i => encode_xml (f i) i))
        = l.map fun i => (natDigits i, f i) := by
  intro l
  induction l with
  | nil =>
    intro _
    show findall [] = []
    rw [findall]
  | cons i l2 ih =>
    intro h
    cases l2 with
    | nil =>
      show findall (encode_xml (f i) i) = [(natDigits i, f i)]
      have hx := findall_encode_append (f i) i []
        (h i (List.mem_cons_self i []))
      rw [List.append_nil] at hx
      rw [hx]
      show (natDigits i, f i) :: findall [] = _
      rw [findall]
    | cons j l3 =>
      show findall (encode_xml (f i) i
        ++ ' ' :: joinSpace ((j :: l3).map fun i => encode_xml (f i) i)) = _
      rw [findall_encode_append _ _ _ (h i (List.mem_cons_self i _)), findall_sep,
        ih (fun k hk => h k (List.mem_cons_of_mem _ hk))]
      rfl

/-- Sorting the matches of a permuted tag list by numeric index restores
index order: the keys `digitsVal (natDigits i) = i` are pairwise
distinct, so the stable sort's output is the unique strictly-key-sorted
arrangement. -/
theorem mergeSort_perm_range (l : List Nat) (N : Nat)
    (hl : l.Perm (List.range N)) (g : Nat → PyStr × PyStr)
    (hkey : ∀ i, digitsVal (g i).1 = i) :
    (l.map g).mergeSort (fun a b => decide (digitsVal a.1 ≤ digitsVal b.1))
      = (List.range N).map g := by
  have hperm : ((l.map g).mergeSort
      (fun a b => decide (digitsVal a.1 ≤ digitsVal b.1))).Perm ((List.range N).map g) :=
    (List.mergeSort_perm (l.map g) _).trans (hl.map g)
  have hle := @List.sorted_mergeSort (PyStr × PyStr)
    (fun a b => decide (digitsVal a.1 ≤ digitsVal b.1))
    (fun a b c h1 h2 => by
      simp only [decide_eq_true_eq] at h1 h2 ⊢
      omega)
    (fun a b => by
      simp only [Bool.or_eq_true, decide_eq_true_eq]
      omega)
    (l.map g)
  have hkeys : (((l.map g).mergeSort
      (fun a b => decide (digitsVal a.1 ≤ digitsVal b.1))).map
        fun m => digitsVal m.1).Nodup := by
    have hp2 : (((l.map g).mergeSort
        (fun a b => decide (digitsVal a.1 ≤ digitsVal b.1))).map
          fun m => digitsVal m.1).Perm
        ((List.range N).map fun i => digitsVal (g i).1) := by
      have := hperm.map fun m => digitsVal m.1
      simpa [List.map_map, Function.comp] using this
    rw [hp2.nodup_iff]
    have : ((List.range N).map fun i => digitsVal (g i).1) = List.range N := by
      rw [List.map_congr_left fun i _ => hkey i]
      exact List.map_id _
    rw [this]
    exact List.nodup_range N
  have hne : ((l.map g).mergeSort
      (fun a b => decide (digitsVal a.1 ≤ digitsVal b.1))).Pairwise
        fun a b => digitsVal a.1 ≠ digitsVal b.1 :=
    List.pairwise_map.mp hkeys
  have hstrict : ((l.map g).mergeSort
      (fun a b => decide (digitsVal a.1 ≤ digitsVal b.1))).Pairwise
        fun a b => digitsVal a.1 < digitsVal b.1 := by
    refine (hle.and hne).imp ?_
    intro a b hab
    have h1 : digitsVal a.1 ≤ digitsVal b.1 := by
      have := hab.1
      simpa using this
    exact lt_of_le_of_ne h1 hab.2
  have htarget : ((List.range N).map g).Pairwise
      fun a b => digitsVal a.1 < digitsVal b.1 := by
    refine List.pairwise_map.mpr ?_
    refine (List.pairwise_lt_range N).imp ?_
    intro i j hij
    simpa [hkey] using hij
  haveI : IsAntisymm (PyStr × PyStr) (fun a b => digitsVal a.1 < digitsVal b.1) :=
    ⟨fun a b h1 h2 => absurd h2 (by omega)⟩
  exact List.eq_of_perm_of_sorted hperm hstrict htarget

/-- C3: the round-trip law.  For a transcript whose segment texts
contain no literal `<digits>...</digits>` tag delimiters, decoding the
encoded tagged text — directly, or after any permutation `l` of the
space-joined tagged substrings — returns exactly `N` strings, the `k`-th
being the `k`-th segment's text with surrounding whitespace stripped, in
original segment order. -/
theorem encode_decode_roundtrip_permuted (t : Translation) (l : List Nat)
    (hnt : ∀ b ∈ t.blocks, hasTag b.value = false)
    (hperm : l.Perm (List.range t.blocks.length)) :
    decode_xml (joinSpace (l.map fun i =>
        encode_xml (t.blocks.getD i default).value i))
      = t.blocks.map (fun b => pyStrip b.value) ∧
    decode_xml t.get_full_text_with_xml
      = t.blocks.map (fun b => pyStrip b.value) := by
  have main : ∀ (l' : List Nat), l'.Perm (List.range t.blocks.length) →
      decode_xml (joinSpace (l'.map fun i =>
        encode_xml (t.blocks.getD i default).value i))
      = t.blocks.map (fun b => pyStrip b.value) := by
    intro l' hp
    have hl : ∀ i ∈ l', hasTag (t.blocks.getD i default).value = false := by
      intro i hi
      have hiN : i < t.blocks.length := by
        have := hp.mem_iff.mp hi
        simpa [List.mem_range] using this
      rw [List.getD_eq_getElem t.blocks default hiN]
      exact hnt _ (List.getElem_mem hiN)
    have hfind := findall_join (fun i => (t.blocks.getD i default).value) l' hl
    show ((findall (joinSpace (l'.map fun i =>
        encode_xml (t.blocks.getD i default).value i))).mergeSort
        (fun a b => decide (digitsVal a.1 ≤ digitsVal b.1))).map
        (fun m => pyStrip m.2) = _
    rw [hfind]
    rw [mergeSort_perm_range l' t.blocks.length hp
      (fun i => (natDigits i, (t.blocks.getD i default).value))
      (fun i => digitsVal_natDigits i)]
    rw [List.map_map]
    apply List.ext_getElem (by simp)
    intro k h1 h2
    simp only [List.getElem_map, List.getElem_range, Function.comp]
    rw [List.getD_eq_getElem t.blocks default (by simpa using h1)]
  refine ⟨main l hperm, ?_⟩
  have henum : t.blocks.enum.map (fun p => encode_xml p.2.value p.1)
      = (List.range t.blocks.length).map fun i =>
          encode_xml (t.blocks.getD i default).value i := by
    apply List.ext_getElem (by simp)
    intro k h1 h2
    simp only [List.getElem_map, List.getElem_enum, List.getElem_range]
    rw [List.getD_eq_getElem t.blocks default (by simpa using h1)]
  show decode_xml (joinSpace (t.blocks.enum.map fun p => encode_xml p.2.value p.1)) = _
  rw [henum]
  exact main (List.range t.blocks.length) (List.Perm.refl _)

unseal List.merge List.mergeSort findall natDigits in
/-- C3 witness: the two-block transcript round-trips through a swapped
tagged text. -/
theorem encode_decode_roundtrip_permuted_witness :
    decode_xml (joinSpace ([1, 0].map fun i =>
        encode_xml (transXY.blocks.getD i default).value i))
      = transXY.blocks.map (fun b => pyStrip b.value) ∧
    decode_xml transXY.get_full_text_with_xml
      = transXY.blocks.map (fun b => pyStrip b.value) := by
  exact encode_decode_roundtrip_permuted transXY [1, 0] (by decide) (by decide)

end InstantCards
